import Mathlib

/-!
Verification of the mention-extraction and listener-lifecycle core of
`sms_server/fb_client.py` (class `fb_client`).

Text is modelled as `List Char` (Python `str`).  The name-lookup collaborator
`searchForUsers` is an arbitrary function `List Char → List User`.  The
`fbchat` value classes used by the code (`Mention`, `Message`, `ThreadType`)
are mirrored as plain structures.  Possible `IndexError` from the
`at_indices[at_count]` subscript is made explicit by returning `Option`.
The Python 2 identity tests `c is '@'`, `len(users) is not 0` and
`len(mention) is 0` compare interned one-character strings and small ints and
are modelled as plain equality.
-/

namespace FB

/-- Mirror of the user records returned by `searchForUsers` (only the field
`uid` is read by the code). -/
structure User where
  uid : String
deriving DecidableEq, Repr

/-- Mirror of `fbchat.models.Mention(uid, offset=..., length=...)`. -/
structure Mention where
  uid : String
  offset : Nat
  length : Nat
deriving DecidableEq, Repr

/-- Mirror of `fbchat.models.Message(text=..., mentions=...)`; `mentions` is
`none` when `_extract_mentions` returned Python `None`. -/
structure Message where
  text : List Char
  mentions : Option (List Mention)
deriving DecidableEq, Repr

/-- Mirror of `fbchat.models.ThreadType`. -/
inductive ThreadType
  | USER
  | GROUP
deriving DecidableEq, Repr

/-- The `for c in message_text: if c is '@': at_indices.append(index)` scan,
with `i` the running value of `index`. -/
def atIndicesAux : List Char → Nat → List Nat
  | [], _ => []
  | c :: cs, i => if c = '@' then i :: atIndicesAux cs (i + 1) else atIndicesAux cs (i + 1)

/-- All indices of the character `@` in the text, in increasing order
(the `at_indices` list of `_extract_mentions`). -/
def atIndices (t : List Char) : List Nat := atIndicesAux t 0

/-- Python `message_text.split(" ")`: split on every single space, keeping
empty pieces; the result is never the empty list. -/
def splitSpace : List Char → List (List Char)
  | [] => [[]]
  | c :: cs =>
    if c = ' ' then [] :: splitSpace cs
    else
      match splitSpace cs with
      | [] => [[c]]
      | t :: ts => (c :: t) :: ts

/-- Python `element.startswith("@")`. -/
def atPrefixed : List Char → Bool
  | [] => false
  | c :: _ => c = '@'

/-- How many elements of a token list start with `@`: the total amount by
which `at_count` advances over those tokens. -/
def atLeadCount : List (List Char) → Nat
  | [] => 0
  | e :: es => (if atPrefixed e then 1 else 0) + atLeadCount es

/-- The token walk of `_extract_mentions`: `es` are the remaining elements of
`message_text.split(" ")`, `k` the current `at_count`, `atIdx` the full
`at_indices` list.  Returns `none` exactly when the subscript
`at_indices[at_count]` would raise `IndexError`. -/
def processElems (lookup : List Char → List User) (atIdx : List Nat) :
    List (List Char) → Nat → Option (List Mention)
  | [], _ => some []
  | e :: es, k =>
    if atPrefixed e then
      match lookup (e.drop 1) with
      | [] => processElems lookup atIdx es (k + 1)
      | u :: _ =>
        match atIdx[k]? with
        | none => none
        | some off =>
          (processElems lookup atIdx es (k + 1)).map
            (fun rest => { uid := u.uid, offset := off, length := e.length } :: rest)
    else processElems lookup atIdx es k

/-- The mention list built by `_extract_mentions` before the final
`None if len(mention) is 0 else mention` wrapping. -/
def extractMentionsRun (lookup : List Char → List User) (t : List Char) :
    Option (List Mention) :=
  processElems lookup (atIndices t) (splitSpace t) 0

/-- `_extract_mentions`: outer `none` models an `IndexError` escaping the
function; `some none` models the Python return value `None`. -/
def extractMentions (lookup : List Char → List User) (t : List Char) :
    Option (Option (List Mention)) :=
  (extractMentionsRun lookup t).map (fun ms => if ms.length = 0 then none else some ms)

/-- `_construct_message_from_text`. -/
def constructMessageFromText (lookup : List Char → List User) (t : List Char) :
    Option Message :=
  (extractMentions lookup t).map (fun ms => { text := t, mentions := ms })

/-- Reassemble the pieces of a single-space split (inverse of `splitSpace`). -/
def joinToks : List (List Char) → List Char
  | [] => []
  | [t] => t
  | t :: t2 :: ts => t ++ ' ' :: joinToks (t2 :: ts)

/-- The `@`-indices of a token list laid out from start position `p`, each
token followed by one separating space. -/
def atIdxOfTokens : List (List Char) → Nat → List Nat
  | [], _ => []
  | e :: es, p => atIndicesAux e p ++ atIdxOfTokens es (p + e.length + 1)

/-- Every token of `es`, laid out from position `p`, ends at or before `L`. -/
def toksWithin : List (List Char) → Nat → Nat → Prop
  | [], _, _ => True
  | e :: es, p, L => p + e.length ≤ L ∧ toksWithin es (p + e.length + 1) L

/-- The spans described by the specification, stated from its words: walking
the tokens left to right with `p` the start position of the current token in
the original text, an `@`-prefixed token whose lookup is non-empty yields a
span whose `offset` is the index of the token's leading `@` (the token start)
and whose `length` is the token's length including the `@`.  Used to compare
the implementation against the specification. -/
def specSpans (lookup : List Char → List User) : List (List Char) → Nat → List Mention
  | [], _ => []
  | e :: es, p =>
    let rest := specSpans lookup es (p + e.length + 1)
    if atPrefixed e then
      match lookup (e.drop 1) with
      | [] => rest
      | u :: _ => { uid := u.uid, offset := p, length := e.length } :: rest
    else rest

/-- `FBClientError` (from `fb_client_exceptions`, raised by `send_message`,
`start_listen` and `stop_listen`). -/
inductive FBClientError
  | invalidDest (msg : String)
  | alreadyListening
  | notListening
deriving DecidableEq, Repr

/-- Outcome of `send_message`: an `FBClientError` raised by the destination
check, an `IndexError` escaping message construction, a single call to the
transport `self.send(...)`, or a silent return without any send (unreachable
fall-through of the final `if`/`elif`). -/
inductive SendResult
  | raised (e : FBClientError)
  | indexError
  | sent (m : Message) (thread_id : String) (ttype : ThreadType)
  | noCall
deriving DecidableEq, Repr

/-- `send_message(message_text, user_uid, group_uid)`. -/
def send_message (lookup : List Char → List User) (message_text : List Char)
    (user_uid group_uid : Option String) : SendResult :=
  if user_uid = none ∧ group_uid = none then
    .raised (.invalidDest "Must provide a user_uid or group_uid")
  else if user_uid ≠ none ∧ group_uid ≠ none then
    .raised (.invalidDest ("Must only provide one of either a " ++ "user_uid or group_uid"))
  else
    match user_uid with
    | some uid =>
      match constructMessageFromText lookup message_text with
      | none => .indexError
      | some m => .sent m uid ThreadType.USER
    | none =>
      match group_uid with
      | some gid =>
        match constructMessageFromText lookup message_text with
        | none => .indexError
        | some m => .sent m gid ThreadType.GROUP
      | none => .noCall

/-!
Listener lifecycle (`_listen_daemon`, `start_listen`, `stop_listen`).

`StoppableThread` is not part of this repository's sources; it is modelled
from the spec: a thread object carrying a run-flag, where `is_running()` reads
the flag, `stop()` sets it false, `stopped()` marks the loop exited (the
Stopping→Stopped transition: the flag is false once the loop has exited), and
`join()` blocks until the thread's target has returned.

The daemon body is given a small-step semantics: `DaemonPhase.entry` is the
thread started but before `startListening()`; `DaemonPhase.check` is the top
of the `while` condition; `DaemonPhase.finished` is after
`stopListening(); self.thread.stopped()`.  The future results of the blocking
`doOneListen()` calls are supplied as the oracle list `pending` (when it is
exhausted, `doOneListen` blocks and the daemon has no step).  The transport
log counts the `startListening`/`stopListening` hook invocations.
-/

/-- Phase of `_listen_daemon` between its atomic steps. -/
inductive DaemonPhase
  | entry
  | check
  | finished
deriving DecidableEq, Repr

/-- Modelled from the spec: the `StoppableThread` handle (`self.thread`),
holding the run-flag read by `is_running()`, the daemon's current phase, and
the oracle of future `doOneListen()` results. -/
structure ListenThread where
  running : Bool
  phase : DaemonPhase
  pending : List Bool
deriving DecidableEq, Repr

/-- Counts of the transport hooks called so far. -/
structure TransportLog where
  startL : Nat
  stopL : Nat
deriving DecidableEq, Repr

/-- The client as seen by `start_listen`/`stop_listen`: `thread = none` models
the `self.thread` attribute being absent (`AttributeError` branch). -/
structure ClientState where
  thread : Option ListenThread
  log : TransportLog
deriving DecidableEq, Repr

/-- One atomic step of `_listen_daemon`:
`entry`: run `self.startListening(); self.onListening()` and reach the loop.
`check`: evaluate `self.thread.is_running() and self.doOneListen()`; on a
false flag exit without calling `doOneListen` (short-circuit), otherwise
consume one `doOneListen` result; on loop exit run
`self.stopListening(); self.thread.stopped()`.
`finished`: the target has returned; no step. -/
def daemonStep (t : ListenThread) (log : TransportLog) :
    Option (ListenThread × TransportLog) :=
  match t.phase with
  | .entry => some ({ t with phase := .check }, { log with startL := log.startL + 1 })
  | .check =>
    if t.running then
      match t.pending with
      | [] => none
      | b :: bs =>
        if b then some ({ t with pending := bs }, log)
        else some ({ running := false, phase := .finished, pending := bs },
                   { log with stopL := log.stopL + 1 })
    else some ({ t with running := false, phase := .finished },
               { log with stopL := log.stopL + 1 })
  | .finished => none

/-- A daemon step lifted to the client state (background activity only). -/
def clientDaemonStep (c : ClientState) : Option ClientState :=
  match c.thread with
  | none => none
  | some t =>
    match daemonStep t c.log with
    | none => none
    | some (t2, log2) => some { thread := some t2, log := log2 }

/-- Any number of background daemon steps. -/
def ClientSteps : ClientState → ClientState → Prop :=
  Relation.ReflTransGen (fun a b => clientDaemonStep a = some b)

/-- Any number of daemon steps on the bare thread/log pair. -/
def DaemonSteps : ListenThread × TransportLog → ListenThread × TransportLog → Prop :=
  Relation.ReflTransGen (fun a b => daemonStep a.1 a.2 = some b)

/-- `self.thread.join()` once the run-flag is false: the daemon runs to
completion.  With the flag false the remaining execution is deterministic and
finite: from `entry` it performs the setup hooks, observes the false flag and
exits; from `check` it observes the false flag and exits; from `finished` it
has already returned. -/
def joinRun (t : ListenThread) (log : TransportLog) : ListenThread × TransportLog :=
  match t.phase with
  | .finished => (t, log)
  | .entry => ({ running := false, phase := .finished, pending := t.pending },
               { startL := log.startL + 1, stopL := log.stopL + 1 })
  | .check => ({ running := false, phase := .finished, pending := t.pending },
               { log with stopL := log.stopL + 1 })

/-- `start_listen`: raises `FBClientError` when `self.thread` exists,
otherwise creates and starts the listener thread.  `pending` is the oracle of
future `doOneListen()` results for the new thread. -/
def start_listen (pending : List Bool) (c : ClientState) :
    ClientState × Option FBClientError :=
  match c.thread with
  | some _ => (c, some .alreadyListening)
  | none =>
    ({ c with thread := some { running := true, phase := .entry, pending := pending } },
     none)

/-- `stop_listen`: raises `FBClientError` when `self.thread` is absent;
when the thread `is_running()` it does `stop(); join(); del self.thread`;
otherwise it returns silently leaving the state unchanged. -/
def stop_listen (c : ClientState) : ClientState × Option FBClientError :=
  match c.thread with
  | none => (c, some .notListening)
  | some t =>
    if t.running then
      ({ thread := none, log := (joinRun { t with running := false } c.log).2 }, none)
    else (c, none)

/-- A live (running) thread has not yet finished; holds in every reachable
state and is preserved by daemon steps. -/
def GoodThread (c : ClientState) : Prop :=
  ∀ t, c.thread = some t → t.running = true → t.phase ≠ DaemonPhase.finished

/-! ### Concrete inputs used by counterexamples and witnesses -/

/-- A concrete lookup table resolving the names used in the examples. -/
def exLookup : List Char → List User := fun n =>
  if n = ['B', 'o', 'b'] then [{ uid := "U1" }]
  else if n = ['a', '@', 'b'] then [{ uid := "U1" }]
  else if n = ['c'] then [{ uid := "U2" }]
  else if n = ['a'] then [{ uid := "U3" }]
  else if n = ['b'] then [{ uid := "U4" }]
  else if n = ['x'] then [{ uid := "U5" }]
  else if n = ['y'] then [{ uid := "U6" }]
  else []

/-- `exLookup` with the name `x` unresolvable (no candidates). -/
def exLookupNoX : List Char → List User := fun n =>
  if n = ['x'] then [] else exLookup n

/-- The spec scenario text `hello @Bob how are you`. -/
def exTextBob : List Char :=
  ['h', 'e', 'l', 'l', 'o', ' ', '@', 'B', 'o', 'b', ' ',
   'h', 'o', 'w', ' ', 'a', 'r', 'e', ' ', 'y', 'o', 'u']

/-- `x@y @c`: an `@` inside a non-mention token desynchronizes the offsets. -/
def exTextDesync : List Char := ['x', '@', 'y', ' ', '@', 'c']

/-- `@a@b @c`: a second `@` inside a mention token makes emitted spans overlap. -/
def exTextOverlap : List Char := ['@', 'a', '@', 'b', ' ', '@', 'c']

/-- `hi @a @b`: two well-formed mentions. -/
def exTextAB : List Char := ['h', 'i', ' ', '@', 'a', ' ', '@', 'b']

/-- `@x @y`: two mention tokens, used to compare a failed and a successful
lookup for `x`. -/
def exTextTwo : List Char := ['@', 'x', ' ', '@', 'y']

/-- A client that has never listened (`self.thread` absent). -/
def exClientIdle : ClientState :=
  { thread := none, log := { startL := 0, stopL := 0 } }

/-- A client right after `start_listen` with one pending successful
`doOneListen` result. -/
def exClientStarted : ClientState :=
  { thread := some { running := true, phase := DaemonPhase.entry, pending := [true] },
    log := { startL := 0, stopL := 0 } }

/-- A client whose loop exited on its own (a `doOneListen` returned false):
the `self.thread` attribute is still present but the thread is no longer
running. -/
def exClientSelfStopped : ClientState :=
  { thread := some { running := false, phase := DaemonPhase.finished, pending := [] },
    log := { startL := 1, stopL := 1 } }

/-! ### Structural lemmas about the split and the `@`-index scan -/

theorem splitSpace_ne_nil (t : List Char) : splitSpace t ≠ [] := by
  cases t with
  | nil => simp [splitSpace]
  | cons c cs =>
    simp only [splitSpace]
    by_cases h : c = ' '
    · simp [h]
    · simp only [if_neg h]
      cases hs : splitSpace cs <;> simp

theorem joinToks_splitSpace (t : List Char) : joinToks (splitSpace t) = t := by
  induction t with
  | nil => rfl
  | cons c cs ih =>
    simp only [splitSpace]
    by_cases h : c = ' '
    · subst h
      simp only [if_pos rfl]
      cases hs : splitSpace cs with
      | nil => exact absurd hs (splitSpace_ne_nil cs)
      | cons x xs =>
        rw [hs] at ih
        simpa [joinToks] using ih
    · simp only [if_neg h]
      cases hs : splitSpace cs with
      | nil => exact absurd hs (splitSpace_ne_nil cs)
      | cons x xs =>
        rw [hs] at ih
        cases xs with
        | nil =>
          simp only [joinToks] at ih ⊢
          exact congrArg (fun l => c :: l) ih
        | cons y ys =>
          simp only [joinToks] at ih ⊢
          rw [List.cons_append, ih]

theorem atIndicesAux_append (xs ys : List Char) (p : Nat) :
    atIndicesAux (xs ++ ys) p = atIndicesAux xs p ++ atIndicesAux ys (p + xs.length) := by
  induction xs generalizing p with
  | nil => simp [atIndicesAux]
  | cons c cs ih =>
    have hlen : p + 1 + cs.length = p + (c :: cs).length := by
      simp only [List.length_cons]; omega
    simp only [List.cons_append, atIndicesAux, List.append_eq]
    by_cases h : c = '@'
    · rw [if_pos h, if_pos h, ih (p + 1), hlen, List.cons_append]
    · rw [if_neg h, if_neg h, ih (p + 1), hlen]

theorem mem_atIndicesAux_bounds {v : Nat} :
    ∀ (t : List Char) (p : Nat), v ∈ atIndicesAux t p → p ≤ v ∧ v < p + t.length := by
  intro t
  induction t with
  | nil => intro p h; simp [atIndicesAux] at h
  | cons c cs ih =>
    intro p h
    simp only [atIndicesAux] at h
    by_cases hc : c = '@'
    · rw [if_pos hc] at h
      rcases List.mem_cons.mp h with h | h
      · subst h; simp only [List.length_cons]; omega
      · have := ih (p + 1) h
        simp only [List.length_cons]
        omega
    · rw [if_neg hc] at h
      have := ih (p + 1) h
      simp only [List.length_cons]
      omega

theorem atIndicesAux_of_not_mem :
    ∀ (t : List Char), '@' ∉ t → ∀ (p : Nat), atIndicesAux t p = [] := by
  intro t
  induction t with
  | nil => intro _ p; rfl
  | cons c cs ih =>
    intro h p
    simp only [List.mem_cons, not_or] at h
    have hc : ¬ c = '@' := fun hc => h.1 hc.symm
    simp only [atIndicesAux, if_neg hc]
    exact ih h.2 (p + 1)

theorem atIndicesAux_joinToks :
    ∀ (es : List (List Char)) (p : Nat), atIndicesAux (joinToks es) p = atIdxOfTokens es p := by
  intro es
  induction es with
  | nil => intro p; rfl
  | cons e es ih =>
    intro p
    cases es with
    | nil => simp [joinToks, atIdxOfTokens, atIndicesAux]
    | cons e2 es2 =>
      simp only [joinToks, atIdxOfTokens]
      rw [atIndicesAux_append]
      congr 1
      simp only [atIndicesAux]
      rw [if_neg (by decide)]
      exact ih (p + e.length + 1)

theorem atIndices_eq_tokens (t : List Char) :
    atIndices t = atIdxOfTokens (splitSpace t) 0 := by
  have h := atIndicesAux_joinToks (splitSpace t) 0
  rw [joinToks_splitSpace] at h
  exact h

theorem toksWithin_of_le :
    ∀ (es : List (List Char)) (p L : Nat), p + (joinToks es).length ≤ L → toksWithin es p L := by
  intro es
  induction es with
  | nil => intro p L _; trivial
  | cons e es ih =>
    intro p L h
    cases es with
    | nil =>
      simp only [joinToks] at h
      exact ⟨h, trivial⟩
    | cons e2 es2 =>
      simp only [joinToks, List.length_append, List.length_cons] at h
      exact ⟨by omega, ih _ _ (by omega)⟩

theorem toksWithin_splitSpace (t : List Char) :
    toksWithin (splitSpace t) 0 t.length := by
  apply toksWithin_of_le
  rw [joinToks_splitSpace]
  omega

/-! ### Totality and bounds of the token walk

The key invariant: when `k` elements of `at_indices` lie strictly before the
current layout position `p` (the prefix `pre`), every `@`-prefixed token still
to come finds `at_indices[at_count]` in bounds and pointing at or before its
own start. -/

theorem processElems_total (lookup : List Char → List User) (fullIdx : List Nat) (L : Nat) :
    ∀ (es : List (List Char)) (p k : Nat) (pre : List Nat),
      fullIdx = pre ++ atIdxOfTokens es p →
      k ≤ pre.length →
      (∀ v ∈ pre, v < p) →
      toksWithin es p L →
      ∃ ms, processElems lookup fullIdx es k = some ms ∧
        ∀ m ∈ ms, 0 < m.length ∧ m.offset + m.length ≤ L := by
  intro es
  induction es with
  | nil =>
    intro p k pre _ _ _ _
    exact ⟨[], rfl, by simp⟩
  | cons e es ih =>
    intro p k pre hfull hk hpre hwit
    obtain ⟨hend, hwit2⟩ := hwit
    by_cases hat : atPrefixed e = true
    · obtain ⟨etl, rfl⟩ : ∃ etl, e = '@' :: etl := by
        cases e with
        | nil => simp [atPrefixed] at hat
        | cons c etl =>
          simp only [atPrefixed, decide_eq_true_eq] at hat
          exact ⟨etl, by rw [hat]⟩
      have hidx : atIdxOfTokens (('@' :: etl) :: es) p =
          (p :: atIndicesAux etl (p + 1)) ++ atIdxOfTokens es (p + ('@' :: etl).length + 1) := by
        simp [atIdxOfTokens, atIndicesAux]
      have hoff : ∃ off, fullIdx[k]? = some off ∧ off ≤ p := by
        rcases Nat.lt_or_ge k pre.length with hlt | hge
        · refine ⟨pre[k], ?_, le_of_lt (hpre pre[k] (List.getElem_mem hlt))⟩
          rw [hfull, List.getElem?_append_left hlt, List.getElem?_eq_getElem hlt]
        · have hke : k = pre.length := le_antisymm hk hge
          refine ⟨p, ?_, le_refl p⟩
          rw [hfull, hidx, List.getElem?_append_right hge, hke]
          simp
      obtain ⟨off, hoffeq, hoffle⟩ := hoff
      have hpre2 : ∀ v ∈ pre ++ atIndicesAux ('@' :: etl) p, v < p + ('@' :: etl).length + 1 := by
        intro v hv
        rcases List.mem_append.mp hv with hv | hv
        · have := hpre v hv
          omega
        · have := mem_atIndicesAux_bounds ('@' :: etl) p hv
          omega
      have hfull2 : fullIdx = (pre ++ atIndicesAux ('@' :: etl) p) ++
          atIdxOfTokens es (p + ('@' :: etl).length + 1) := by
        rw [hfull]
        simp only [atIdxOfTokens, List.append_assoc]
      have hk2 : k + 1 ≤ (pre ++ atIndicesAux ('@' :: etl) p).length := by
        have : 0 < (atIndicesAux ('@' :: etl) p).length := by
          simp [atIndicesAux]
        simp only [List.length_append]
        omega
      obtain ⟨ms, hms, hbd⟩ := ih (p + ('@' :: etl).length + 1) (k + 1)
        (pre ++ atIndicesAux ('@' :: etl) p) hfull2 hk2 hpre2 hwit2
      cases hl : lookup (('@' :: etl).drop 1) with
      | nil =>
        refine ⟨ms, ?_, hbd⟩
        simp only [processElems, if_pos hat, hl]
        exact hms
      | cons u us =>
        refine ⟨{ uid := u.uid, offset := off, length := ('@' :: etl).length } :: ms, ?_, ?_⟩
        · simp only [processElems, if_pos hat, hl, hoffeq, hms]
          rfl
        · intro m hm
          rcases List.mem_cons.mp hm with hm | hm
          · subst hm
            constructor
            · simp [List.length_cons]
            · simp only [List.length_cons] at hend ⊢
              omega
          · exact hbd m hm
    · have hfull2 : fullIdx = (pre ++ atIndicesAux e p) ++
          atIdxOfTokens es (p + e.length + 1) := by
        rw [hfull]
        simp only [atIdxOfTokens, List.append_assoc]
      have hpre2 : ∀ v ∈ pre ++ atIndicesAux e p, v < p + e.length + 1 := by
        intro v hv
        rcases List.mem_append.mp hv with hv | hv
        · have := hpre v hv
          omega
        · have := mem_atIndicesAux_bounds e p hv
          omega
      have hk2 : k ≤ (pre ++ atIndicesAux e p).length := by
        simp only [List.length_append]
        omega
      obtain ⟨ms, hms, hbd⟩ := ih (p + e.length + 1) k (pre ++ atIndicesAux e p)
        hfull2 hk2 hpre2 hwit2
      refine ⟨ms, ?_, hbd⟩
      simp only [processElems, if_neg hat]
      exact hms

/-- The run of `_extract_mentions` never hits the `IndexError` and every span
it builds is positive-length and fits inside the text. -/
theorem extractMentionsRun_total (lookup : List Char → List User) (t : List Char) :
    ∃ ms, extractMentionsRun lookup t = some ms ∧
      ∀ m ∈ ms, 0 < m.length ∧ m.offset + m.length ≤ t.length := by
  have h := processElems_total lookup (atIndices t) t.length (splitSpace t) 0 0 []
    (by simpa using atIndices_eq_tokens t) (by simp) (by simp) (toksWithin_splitSpace t)
  simpa [extractMentionsRun] using h

/-! ### The aligned case: every `@` leads its token

When no token carries an `@` past its first character, the `at_indices` list
and the token walk stay synchronized and the implementation computes exactly
the spans described by the specification (`specSpans`). -/

theorem processElems_aligned (lookup : List Char → List User) (fullIdx : List Nat) :
    ∀ (es : List (List Char)) (p : Nat) (pre : List Nat),
      fullIdx = pre ++ atIdxOfTokens es p →
      (∀ e ∈ es, '@' ∉ List.drop 1 e) →
      processElems lookup fullIdx es pre.length = some (specSpans lookup es p) := by
  intro es
  induction es with
  | nil => intro p pre _ _; rfl
  | cons e es ih =>
    intro p pre hfull halign
    have halign1 : '@' ∉ List.drop 1 e := halign e (List.mem_cons_self e es)
    have halign2 : ∀ e2 ∈ es, '@' ∉ List.drop 1 e2 :=
      fun e2 h2 => halign e2 (List.mem_cons_of_mem e h2)
    by_cases hat : atPrefixed e = true
    · obtain ⟨etl, rfl⟩ : ∃ etl, e = '@' :: etl := by
        cases e with
        | nil => simp [atPrefixed] at hat
        | cons c etl =>
          simp only [atPrefixed, decide_eq_true_eq] at hat
          exact ⟨etl, by rw [hat]⟩
      have hdropm : '@' ∉ etl := by simpa using halign1
      have hA : atIndicesAux ('@' :: etl) p = [p] := by
        have h0 := atIndicesAux_of_not_mem etl hdropm (p + 1)
        simp [atIndicesAux, h0]
      have hfull2 : fullIdx = (pre ++ [p]) ++
          atIdxOfTokens es (p + ('@' :: etl).length + 1) := by
        rw [hfull]
        simp only [atIdxOfTokens, hA, List.append_assoc, List.singleton_append]
      have hoffeq : fullIdx[pre.length]? = some p := by
        rw [hfull2, List.append_assoc, List.getElem?_append_right (le_refl pre.length)]
        simp
      have ihh := ih (p + ('@' :: etl).length + 1) (pre ++ [p]) hfull2 halign2
      have hlen2 : (pre ++ [p]).length = pre.length + 1 := by simp
      rw [hlen2] at ihh
      cases hl : lookup (List.drop 1 ('@' :: etl)) with
      | nil =>
        simp only [processElems, if_pos hat, hl, specSpans]
        exact ihh
      | cons u us =>
        simp only [processElems, if_pos hat, hl, hoffeq, ihh, specSpans]
        rfl
    · have hA : atIndicesAux e p = [] := by
        cases e with
        | nil => rfl
        | cons c etl =>
          simp only [atPrefixed, decide_eq_true_eq] at hat
          have : '@' ∉ etl := by simpa using halign1
          simp only [atIndicesAux, if_neg hat]
          exact atIndicesAux_of_not_mem etl this (p + 1)
      have hfull2 : fullIdx = pre ++ atIdxOfTokens es (p + e.length + 1) := by
        rw [hfull]
        simp only [atIdxOfTokens, hA, List.nil_append]
      have ihh := ih (p + e.length + 1) pre hfull2 halign2
      simp only [processElems, if_neg hat, specSpans]
      exact ihh

/-- Under the alignment condition the run of `_extract_mentions` is exactly
the specification's span list. -/
theorem extractMentionsRun_aligned (lookup : List Char → List User) (t : List Char)
    (halign : ∀ e ∈ splitSpace t, '@' ∉ List.drop 1 e) :
    extractMentionsRun lookup t = some (specSpans lookup (splitSpace t) 0) := by
  have h := processElems_aligned lookup (atIndices t) (splitSpace t) 0 []
    (by simpa using atIndices_eq_tokens t) halign
  simpa [extractMentionsRun] using h

theorem specSpans_offset_ge (lookup : List Char → List User) :
    ∀ (es : List (List Char)) (p : Nat), ∀ m ∈ specSpans lookup es p, p ≤ m.offset := by
  intro es
  induction es with
  | nil => intro p m hm; simp [specSpans] at hm
  | cons e es ih =>
    intro p m hm
    simp only [specSpans] at hm
    by_cases hat : atPrefixed e = true
    · rw [if_pos hat] at hm
      cases hl : lookup (List.drop 1 e) with
      | nil =>
        rw [hl] at hm
        have := ih (p + e.length + 1) m hm
        omega
      | cons u us =>
        rw [hl] at hm
        rcases List.mem_cons.mp hm with hm | hm
        · subst hm; exact le_refl p
        · have := ih (p + e.length + 1) m hm
          omega
    · rw [if_neg hat] at hm
      have := ih (p + e.length + 1) m hm
      omega

theorem specSpans_pairwise (lookup : List Char → List User) :
    ∀ (es : List (List Char)) (p : Nat),
      List.Pairwise (fun a b => a.offset + a.length ≤ b.offset) (specSpans lookup es p) := by
  intro es
  induction es with
  | nil => intro p; simp [specSpans]
  | cons e es ih =>
    intro p
    simp only [specSpans]
    by_cases hat : atPrefixed e = true
    · rw [if_pos hat]
      cases hl : lookup (List.drop 1 e) with
      | nil => exact ih (p + e.length + 1)
      | cons u us =>
        refine List.Pairwise.cons ?_ (ih (p + e.length + 1))
        intro b hb
        have hb2 := specSpans_offset_ge lookup es (p + e.length + 1) b hb
        show p + e.length ≤ b.offset
        omega
    · rw [if_neg hat]
      exact ih (p + e.length + 1)

/-! ### Decomposition and lookup-dependence of the token walk -/

theorem processElems_append (lookup : List Char → List User) (atIdx : List Nat) :
    ∀ (xs ys : List (List Char)) (k : Nat),
      processElems lookup atIdx (xs ++ ys) k =
        (processElems lookup atIdx xs k).bind
          (fun a => (processElems lookup atIdx ys (k + atLeadCount xs)).map
            (fun b => a ++ b)) := by
  intro xs
  induction xs with
  | nil =>
    intro ys k
    simp [processElems, atLeadCount]
  | cons e xs ih =>
    intro ys k
    simp only [List.cons_append, processElems, atLeadCount]
    by_cases hat : atPrefixed e = true
    · have harith : k + (1 + atLeadCount xs) = k + 1 + atLeadCount xs := by omega
      rw [if_pos hat, if_pos hat, if_pos hat, harith]
      cases hl : lookup (List.drop 1 e) with
      | nil => exact ih ys (k + 1)
      | cons u us =>
        cases ho : atIdx[k]? with
        | none => rfl
        | some off =>
          simp only [List.append_eq]
          rw [ih ys (k + 1)]
          generalize processElems lookup atIdx xs (k + 1) = A
          generalize processElems lookup atIdx ys (k + 1 + atLeadCount xs) = B
          cases A with
          | none => rfl
          | some a =>
            cases B with
            | none => rfl
            | some b => simp
    · have harith : k + (0 + atLeadCount xs) = k + atLeadCount xs := by omega
      rw [if_neg hat, if_neg hat, if_neg hat, harith]
      exact ih ys k

theorem processElems_congr (atIdx : List Nat) (l1 l2 : List Char → List User) :
    ∀ (es : List (List Char)) (k : Nat),
      (∀ e ∈ es, atPrefixed e = true → l1 (List.drop 1 e) = l2 (List.drop 1 e)) →
      processElems l1 atIdx es k = processElems l2 atIdx es k := by
  intro es
  induction es with
  | nil => intro k _; rfl
  | cons e es ih =>
    intro k hagree
    have h1 : atPrefixed e = true → l1 (List.drop 1 e) = l2 (List.drop 1 e) :=
      hagree e (List.mem_cons_self e es)
    have h2 : ∀ e2 ∈ es, atPrefixed e2 = true → l1 (List.drop 1 e2) = l2 (List.drop 1 e2) :=
      fun e2 he hat => hagree e2 (List.mem_cons_of_mem e he) hat
    simp only [processElems]
    by_cases hat : atPrefixed e = true
    · rw [if_pos hat, if_pos hat, h1 hat]
      cases l2 (List.drop 1 e) with
      | nil => exact ih (k + 1) h2
      | cons u us =>
        cases atIdx[k]? with
        | none => rfl
        | some off => rw [ih (k + 1) h2]
    · rw [if_neg hat, if_neg hat]
      exact ih k h2

/-! ### Listener lifecycle lemmas -/

theorem joinRun_daemonSteps (t : ListenThread) (log : TransportLog)
    (h : t.running = false) :
    DaemonSteps (t, log) (joinRun t log) ∧
      (joinRun t log).1.phase = DaemonPhase.finished ∧
      (joinRun t log).1.running = false := by
  obtain ⟨running, phase, pending⟩ := t
  cases running with
  | true => simp at h
  | false =>
    cases phase with
    | finished => exact ⟨Relation.ReflTransGen.refl, rfl, rfl⟩
    | entry =>
      refine ⟨?_, rfl, rfl⟩
      have s1 : daemonStep ⟨false, DaemonPhase.entry, pending⟩ log =
          some (⟨false, DaemonPhase.check, pending⟩,
            { log with startL := log.startL + 1 }) := rfl
      have s2 : daemonStep ⟨false, DaemonPhase.check, pending⟩
          { log with startL := log.startL + 1 } =
          some (⟨false, DaemonPhase.finished, pending⟩,
            { startL := log.startL + 1, stopL := log.stopL + 1 }) := rfl
      exact Relation.ReflTransGen.head s1
        (Relation.ReflTransGen.head s2 Relation.ReflTransGen.refl)
    | check =>
      refine ⟨?_, rfl, rfl⟩
      have s1 : daemonStep ⟨false, DaemonPhase.check, pending⟩ log =
          some (⟨false, DaemonPhase.finished, pending⟩,
            { log with stopL := log.stopL + 1 }) := rfl
      exact Relation.ReflTransGen.head s1 Relation.ReflTransGen.refl

theorem daemonStep_good {t t2 : ListenThread} {log log2 : TransportLog}
    (h : daemonStep t log = some (t2, log2)) :
    t2.running = true → t2.phase ≠ DaemonPhase.finished := by
  obtain ⟨running, phase, pending⟩ := t
  cases running with
  | false =>
    cases phase with
    | entry =>
      simp only [daemonStep] at h
      cases h
      intro _
      simp
    | check =>
      simp only [daemonStep] at h
      rw [if_neg (by simp)] at h
      cases h
      intro hr
      simp at hr
    | finished => simp [daemonStep] at h
  | true =>
    cases phase with
    | entry =>
      simp only [daemonStep] at h
      cases h
      intro _
      simp
    | check =>
      simp only [daemonStep] at h
      rw [if_pos trivial] at h
      cases pending with
      | nil => simp at h
      | cons b bs =>
        cases b with
        | true =>
          dsimp only at h
          cases h
          intro _
          simp
        | false =>
          dsimp only at h
          cases h
          intro hr
          simp at hr
    | finished => simp [daemonStep] at h

theorem clientDaemonStep_cases {c c2 : ClientState}
    (h : clientDaemonStep c = some c2) :
    ∃ t t2 log2, c.thread = some t ∧ daemonStep t c.log = some (t2, log2) ∧
      c2 = { thread := some t2, log := log2 } := by
  obtain ⟨th, log⟩ := c
  cases th with
  | none => simp [clientDaemonStep] at h
  | some t =>
    cases hd : daemonStep t log with
    | none => simp [clientDaemonStep, hd] at h
    | some pr =>
      obtain ⟨t2, log2⟩ := pr
      refine ⟨t, t2, log2, rfl, hd, ?_⟩
      simp only [clientDaemonStep, hd, Option.some.injEq] at h
      exact h.symm

theorem clientSteps_good {c c2 : ClientState} (h : ClientSteps c c2)
    (hg : GoodThread c) : GoodThread c2 := by
  induction h with
  | refl => exact hg
  | tail hs hstep ih =>
    obtain ⟨t, t2, log2, hct, hd, hc2⟩ := clientDaemonStep_cases hstep
    intro t' ht' hr'
    rw [hc2] at ht'
    simp only [Option.some.injEq] at ht'
    subst ht'
    exact daemonStep_good hd hr'

theorem clientSteps_thread {c c2 : ClientState} (h : ClientSteps c c2)
    (hc : c.thread ≠ none) : c2.thread ≠ none := by
  induction h with
  | refl => exact hc
  | tail hs hstep ih =>
    obtain ⟨t, t2, log2, hct, hd, hc2⟩ := clientDaemonStep_cases hstep
    rw [hc2]
    simp

/-- Shared helper: `_construct_message_from_text` always returns a message
carrying the input text. -/
theorem constructMessage_total (lookup : List Char → List User) (t : List Char) :
    ∃ m, constructMessageFromText lookup t = some m ∧ m.text = t := by
  obtain ⟨ms, hms, _⟩ := extractMentionsRun_total lookup t
  refine ⟨{ text := t, mentions := if ms.length = 0 then none else some ms }, ?_, rfl⟩
  simp only [constructMessageFromText, extractMentions, hms, Option.map_map]
  rfl

/-! ### Claims -/

/-- C6: for every text, `_construct_message_from_text` succeeds — in
particular the `at_indices[at_count]` subscript inside `_extract_mentions` is
always in bounds, because the `@`-leading tokens consumed never outnumber the
`@` characters scanned — and the resulting message's `text` field is the input
text unchanged (the lookup collaborator is modelled as a total function, i.e.
it does not raise). -/
theorem c6_compose_total (lookup : List Char → List User) (t : List Char) :
    ∃ m, constructMessageFromText lookup t = some m ∧ m.text = t :=
  constructMessage_total lookup t

/-- C3: every span emitted by `_extract_mentions` has
`offset + length ≤ length text`, with the offset a natural number and the
length positive. -/
theorem c3_spans_in_bounds (lookup : List Char → List User) (t : List Char)
    (ms : List Mention) (m : Mention)
    (h : extractMentions lookup t = some (some ms)) (hm : m ∈ ms) :
    0 < m.length ∧ m.offset + m.length ≤ t.length := by
  obtain ⟨ms0, hms0, hbd⟩ := extractMentionsRun_total lookup t
  have heq : extractMentions lookup t =
      some (if ms0.length = 0 then none else some ms0) := by
    simp [extractMentions, hms0]
  rw [heq] at h
  by_cases h0 : ms0.length = 0
  · rw [if_pos h0] at h
    simp at h
  · rw [if_neg h0] at h
    simp only [Option.some.injEq] at h
    subst h
    exact hbd m hm

/-- C3 witness: the `@Bob` span in `hello @Bob how are you`. -/
theorem c3_witness :
    0 < ({ uid := "U1", offset := 6, length := 4 } : Mention).length ∧
      ({ uid := "U1", offset := 6, length := 4 } : Mention).offset +
        ({ uid := "U1", offset := 6, length := 4 } : Mention).length ≤ exTextBob.length :=
  c3_spans_in_bounds exLookup exTextBob [{ uid := "U1", offset := 6, length := 4 }]
    { uid := "U1", offset := 6, length := 4 } (by decide) (by decide)

/-- C1 as stated is false: in `x@y @c` the only `@`-prefixed token is `@c`,
whose leading `@` sits at character index 4, but the span emitted for it
carries offset 1 — the index of the `@` inside the earlier token `x@y` — since
`at_indices` entries are consumed by count of `@`-leading tokens, not by token
identity.  The second conjunct evaluates the specification's span list
(`specSpans`), which puts the offset at 4. -/
theorem c1_counterexample :
    extractMentions exLookup exTextDesync =
        some (some [{ uid := "U2", offset := 1, length := 2 }]) ∧
      specSpans exLookup (splitSpace exTextDesync) 0 =
        [{ uid := "U2", offset := 4, length := 2 }] ∧
      (1 : Nat) ≠ 4 :=
  ⟨by decide, by decide, by decide⟩

/-- C1 amended: provided every `@` of the text is the leading character of its
(single-space-delimited) token, `_extract_mentions` emits for each
`@`-prefixed token with a non-empty lookup a span whose offset is the
character index of that token's leading `@` in the original text and whose
length is the token's length including the `@`, in left-to-right token order:
the run equals `specSpans`, the span list written from the spec's words. -/
theorem c1_amended (lookup : List Char → List User) (t : List Char)
    (halign : ∀ e ∈ splitSpace t, '@' ∉ List.drop 1 e) :
    extractMentionsRun lookup t = some (specSpans lookup (splitSpace t) 0) :=
  extractMentionsRun_aligned lookup t halign

/-- C1 witness: the spec scenario `hello @Bob how are you`. -/
theorem c1_witness :
    (∀ e ∈ splitSpace exTextBob, '@' ∉ List.drop 1 e) ∧
      extractMentionsRun exLookup exTextBob =
        some (specSpans exLookup (splitSpace exTextBob) 0) :=
  ⟨by decide, c1_amended exLookup exTextBob (by decide)⟩

/-- C4 as stated is false: in `@a@b @c` (both lookups non-empty) the spans
come out as offsets/lengths (0,4) then (2,2), and 0 + 4 ≤ 2 fails — the two
spans overlap because the internal `@` of `@a@b` desynchronizes the offset
list. -/
theorem c4_counterexample :
    extractMentions exLookup exTextOverlap =
        some (some [{ uid := "U1", offset := 0, length := 4 },
                    { uid := "U2", offset := 2, length := 2 }]) ∧
      ¬ List.Pairwise (fun a b => a.offset + a.length ≤ b.offset)
        [({ uid := "U1", offset := 0, length := 4 } : Mention),
         { uid := "U2", offset := 2, length := 2 }] :=
  ⟨by decide, by decide⟩

/-- C4 amended: provided every `@` of the text leads its token, the spans
returned by `_extract_mentions` are in the order their `@` tokens appear and
pairwise non-overlapping: each earlier span's `offset + length` is at most
every later span's `offset`. -/
theorem c4_amended (lookup : List Char → List User) (t : List Char)
    (ms : List Mention)
    (halign : ∀ e ∈ splitSpace t, '@' ∉ List.drop 1 e)
    (h : extractMentions lookup t = some (some ms)) :
    List.Pairwise (fun a b => a.offset + a.length ≤ b.offset) ms := by
  have hrun := extractMentionsRun_aligned lookup t halign
  have heq : extractMentions lookup t =
      some (if (specSpans lookup (splitSpace t) 0).length = 0 then none
            else some (specSpans lookup (splitSpace t) 0)) := by
    simp [extractMentions, hrun]
  rw [heq] at h
  by_cases h0 : (specSpans lookup (splitSpace t) 0).length = 0
  · rw [if_pos h0] at h
    simp at h
  · rw [if_neg h0] at h
    simp only [Option.some.injEq] at h
    subst h
    exact specSpans_pairwise lookup (splitSpace t) 0

/-- C4 witness: the two spans of `hi @a @b` are ordered and disjoint. -/
theorem c4_witness :
    List.Pairwise (fun a b => a.offset + a.length ≤ b.offset)
      [({ uid := "U3", offset := 3, length := 2 } : Mention),
       { uid := "U4", offset := 6, length := 2 }] :=
  c4_amended exLookup exTextAB
    [{ uid := "U3", offset := 3, length := 2 }, { uid := "U4", offset := 6, length := 2 }]
    (by decide) (by decide)

/-- C2: when an `@`-prefixed token's lookup returns no candidates, no span is
emitted for it, and the spans emitted for the later `@`-prefixed tokens are
the same (same recipient, offset and length) as they would be had that lookup
succeeded: against a second lookup `l2` that agrees with `l1` on every other
`@`-token name but returns a candidate for the failed one, the two runs differ
only by the one extra span — `at_count` advances by one for the token either
way, so the offset bookkeeping of the suffix is unaffected. -/
theorem c2_failed_lookup (l1 l2 : List Char → List User) (t : List Char)
    (xs zs : List (List Char)) (y : List Char) (u : User) (us : List User)
    (hsplit : splitSpace t = xs ++ y :: zs)
    (hy : atPrefixed y = true)
    (h1 : l1 (List.drop 1 y) = [])
    (h2 : l2 (List.drop 1 y) = u :: us)
    (hagree : ∀ e ∈ xs ++ zs, atPrefixed e = true →
      l1 (List.drop 1 e) = l2 (List.drop 1 e)) :
    ∃ pre suf off,
      extractMentionsRun l1 t = some (pre ++ suf) ∧
      extractMentionsRun l2 t =
        some (pre ++ { uid := u.uid, offset := off, length := y.length } :: suf) := by
  have hagx : ∀ e ∈ xs, atPrefixed e = true → l1 (List.drop 1 e) = l2 (List.drop 1 e) :=
    fun e he hat => hagree e (List.mem_append_left zs he) hat
  have hagz : ∀ e ∈ zs, atPrefixed e = true → l1 (List.drop 1 e) = l2 (List.drop 1 e) :=
    fun e he hat => hagree e (List.mem_append_right xs he) hat
  obtain ⟨ms1, hms1, _⟩ := extractMentionsRun_total l1 t
  obtain ⟨ms2, hms2, _⟩ := extractMentionsRun_total l2 t
  have hrun1 : extractMentionsRun l1 t =
      (processElems l1 (atIndices t) xs 0).bind
        (fun a => (processElems l1 (atIndices t) (y :: zs) (0 + atLeadCount xs)).map
          (fun b => a ++ b)) := by
    rw [extractMentionsRun, hsplit, processElems_append]
  have hrun2 : extractMentionsRun l2 t =
      (processElems l2 (atIndices t) xs 0).bind
        (fun a => (processElems l2 (atIndices t) (y :: zs) (0 + atLeadCount xs)).map
          (fun b => a ++ b)) := by
    rw [extractMentionsRun, hsplit, processElems_append]
  rw [hrun1] at hms1
  rw [hrun2] at hms2
  cases hA1 : processElems l1 (atIndices t) xs 0 with
  | none => rw [hA1] at hms1; simp at hms1
  | some pre1 =>
  cases hB1 : processElems l1 (atIndices t) (y :: zs) (0 + atLeadCount xs) with
  | none => rw [hA1, hB1] at hms1; simp at hms1
  | some rest1 =>
  cases hA2 : processElems l2 (atIndices t) xs 0 with
  | none => rw [hA2] at hms2; simp at hms2
  | some pre2 =>
  cases hB2 : processElems l2 (atIndices t) (y :: zs) (0 + atLeadCount xs) with
  | none => rw [hA2, hB2] at hms2; simp at hms2
  | some rest2 =>
  have hpre12 : pre1 = pre2 := by
    have hcongr := processElems_congr (atIndices t) l1 l2 xs 0 hagx
    rw [hA1, hA2] at hcongr
    exact Option.some.inj hcongr
  have hzs1 : processElems l1 (atIndices t) zs (0 + atLeadCount xs + 1) = some rest1 := by
    have := hB1
    simp only [processElems, if_pos hy, h1] at this
    exact this
  obtain ⟨off, hoff, suf2, hsuf2, hrest2⟩ :
      ∃ off, (atIndices t)[0 + atLeadCount xs]? = some off ∧
        ∃ suf2, processElems l2 (atIndices t) zs (0 + atLeadCount xs + 1) = some suf2 ∧
          rest2 = { uid := u.uid, offset := off, length := y.length } :: suf2 := by
    have hB2u := hB2
    simp only [processElems, if_pos hy, h2] at hB2u
    cases ho : (atIndices t)[0 + atLeadCount xs]? with
    | none => rw [ho] at hB2u; simp at hB2u
    | some off =>
      rw [ho] at hB2u
      cases hC : processElems l2 (atIndices t) zs (0 + atLeadCount xs + 1) with
      | none => rw [hC] at hB2u; simp at hB2u
      | some suf2 =>
        rw [hC] at hB2u
        refine ⟨off, rfl, suf2, rfl, ?_⟩
        simp only [Option.map_some] at hB2u
        exact (Option.some.inj hB2u).symm
  have hsuf12 : rest1 = suf2 := by
    have hcongr := processElems_congr (atIndices t) l1 l2 zs (0 + atLeadCount xs + 1) hagz
    rw [hzs1, hsuf2] at hcongr
    exact Option.some.inj hcongr
  refine ⟨pre1, rest1, off, ?_, ?_⟩
  · rw [hrun1, hA1, hB1]
    rfl
  · rw [hrun2, hA2, hB2, hrest2, ← hpre12, ← hsuf12]
    rfl

/-- C2 witness: in `@x @y` with the lookup for `x` failing, the run contains
only the `@y` span, and it is identical to the `@y` span obtained when the
`x` lookup succeeds. -/
theorem c2_witness :
    ∃ pre suf off,
      extractMentionsRun exLookupNoX exTextTwo = some (pre ++ suf) ∧
      extractMentionsRun exLookup exTextTwo =
        some (pre ++ { uid := "U5", offset := off, length := 2 } :: suf) :=
  c2_failed_lookup exLookupNoX exLookup exTextTwo [] [['@', 'y']] ['@', 'x']
    { uid := "U5" } [] (by decide) (by decide) (by decide) (by decide) (by decide)

/-- C5: `send_message` raises the invalid-destination `FBClientError` exactly
when both of `user_uid`/`group_uid` are absent or both are present; in that
case the outcome is the same for every lookup and every text — no lookup and
no transport call happens, the check precedes message construction — and in
the valid cases the transport's `send` is invoked exactly once, with the
`USER` or `GROUP` thread type and the given identifier. -/
theorem c5_destination_check (lookup : List Char → List User) (t : List Char)
    (u g : Option String) :
    ((∃ s, send_message lookup t u g = SendResult.raised (FBClientError.invalidDest s)) ↔
      ((u = none ∧ g = none) ∨ (u ≠ none ∧ g ≠ none))) ∧
    (((u = none ∧ g = none) ∨ (u ≠ none ∧ g ≠ none)) →
      ∀ (lookup2 : List Char → List User) (t2 : List Char),
        send_message lookup2 t2 u g = send_message lookup t u g) ∧
    (∀ uid, u = some uid → g = none →
      ∃ m, constructMessageFromText lookup t = some m ∧
        send_message lookup t u g = SendResult.sent m uid ThreadType.USER) ∧
    (∀ gid, u = none → g = some gid →
      ∃ m, constructMessageFromText lookup t = some m ∧
        send_message lookup t u g = SendResult.sent m gid ThreadType.GROUP) := by
  cases u with
  | none =>
    cases g with
    | none =>
      refine ⟨⟨fun _ => Or.inl ⟨rfl, rfl⟩,
        fun _ => ⟨"Must provide a user_uid or group_uid", by simp [send_message]⟩⟩,
        fun _ lookup2 t2 => by simp [send_message], ?_, ?_⟩
      · intro uid huid _
        simp at huid
      · intro gid _ hgid
        simp at hgid
    | some b =>
      obtain ⟨m, hm, _⟩ := constructMessage_total lookup t
      have hsend : send_message lookup t none (some b) =
          SendResult.sent m b ThreadType.GROUP := by
        simp [send_message, hm]
      refine ⟨⟨?_, ?_⟩, ?_, ?_, ?_⟩
      · intro ⟨s, hs⟩
        rw [hsend] at hs
        cases hs
      · intro h
        rcases h with ⟨_, hg⟩ | ⟨hu, _⟩
        · cases hg
        · exact absurd rfl hu
      · intro h
        rcases h with ⟨_, hg⟩ | ⟨hu, _⟩
        · cases hg
        · exact absurd rfl hu
      · intro uid huid _
        simp at huid
      · intro gid _ hgid
        have : b = gid := by injection hgid
        subst this
        exact ⟨m, hm, hsend⟩
  | some a =>
    cases g with
    | none =>
      obtain ⟨m, hm, _⟩ := constructMessage_total lookup t
      have hsend : send_message lookup t (some a) none =
          SendResult.sent m a ThreadType.USER := by
        simp [send_message, hm]
      refine ⟨⟨?_, ?_⟩, ?_, ?_, ?_⟩
      · intro ⟨s, hs⟩
        rw [hsend] at hs
        cases hs
      · intro h
        rcases h with ⟨hu, _⟩ | ⟨_, hg⟩
        · cases hu
        · exact absurd rfl hg
      · intro h
        rcases h with ⟨hu, _⟩ | ⟨_, hg⟩
        · cases hu
        · exact absurd rfl hg
      · intro uid huid _
        have : a = uid := by injection huid
        subst this
        exact ⟨m, hm, hsend⟩
      · intro gid hu _
        simp at hu
    | some b =>
      refine ⟨⟨fun _ => Or.inr ⟨by simp, by simp⟩,
        fun _ => ⟨"Must only provide one of either a " ++ "user_uid or group_uid",
          by simp [send_message]⟩⟩,
        fun _ lookup2 t2 => by simp [send_message], ?_, ?_⟩
      · intro uid _ hg
        simp at hg
      · intro gid hu _
        simp at hu

/-- C5 witness: the spec scenario — destination `userId = U9`, no group —
sends once with the USER thread type and identifier `U9`. -/
theorem c5_witness :
    ∃ m, constructMessageFromText exLookup exTextBob = some m ∧
      send_message exLookup exTextBob (some "U9") none =
        SendResult.sent m "U9" ThreadType.USER :=
  (c5_destination_check exLookup exTextBob (some "U9") none).2.2.1 "U9" rfl rfl

/-- C7: calling `start_listen` a second time without an intervening successful
`stop_listen` fails with `FBClientError` — whatever the background loop did in
between (any number of daemon steps), the `self.thread` attribute is still
present, so the second call raises and leaves the state, and with it the first
start's loop, untouched: that loop remains the only loop. -/
theorem c7_double_start (pend pend2 : List Bool) (c : ClientState)
    (hc : c.thread = none) :
    ∃ c1, start_listen pend c = (c1, none) ∧
      ∀ c2, ClientSteps c1 c2 →
        start_listen pend2 c2 = (c2, some FBClientError.alreadyListening) := by
  obtain ⟨th, log⟩ := c
  simp only at hc
  subst hc
  refine ⟨⟨some ⟨true, DaemonPhase.entry, pend⟩, log⟩, rfl, ?_⟩
  intro c2 hsteps
  have hth : c2.thread ≠ none := clientSteps_thread hsteps (by simp)
  obtain ⟨th2, log2⟩ := c2
  cases th2 with
  | none => exact absurd rfl hth
  | some t2 => rfl

/-- C7 witness: starting an idle client twice. -/
theorem c7_witness :
    ∃ c1, start_listen [true] exClientIdle = (c1, none) ∧
      ∀ c2, ClientSteps c1 c2 →
        start_listen [] c2 = (c2, some FBClientError.alreadyListening) :=
  c7_double_start [true] [] exClientIdle rfl

/-- C8 as stated is false on the self-stopped case: after `start_listen` the
loop can exit on its own (`doOneListen` returns false); the `self.thread`
attribute is then still present but `is_running()` is false, and `stop_listen`
returns silently with no error and no state change, instead of raising the
not-listening `FBClientError` the claim requires for the Stopped state. -/
theorem c8_counterexample :
    start_listen [false] exClientIdle =
        ({ thread := some { running := true, phase := DaemonPhase.entry, pending := [false] },
           log := { startL := 0, stopL := 0 } }, none) ∧
      ClientSteps
        { thread := some { running := true, phase := DaemonPhase.entry, pending := [false] },
          log := { startL := 0, stopL := 0 } }
        exClientSelfStopped ∧
      exClientSelfStopped.thread =
        some { running := false, phase := DaemonPhase.finished, pending := [] } ∧
      stop_listen exClientSelfStopped = (exClientSelfStopped, none) := by
  refine ⟨rfl, ?_, rfl, rfl⟩
  have s1 : clientDaemonStep
      { thread := some { running := true, phase := DaemonPhase.entry, pending := [false] },
        log := { startL := 0, stopL := 0 } } =
      some { thread := some { running := true, phase := DaemonPhase.check, pending := [false] },
             log := { startL := 1, stopL := 0 } } := rfl
  have s2 : clientDaemonStep
      { thread := some { running := true, phase := DaemonPhase.check, pending := [false] },
        log := { startL := 1, stopL := 0 } } =
      some exClientSelfStopped := rfl
  exact Relation.ReflTransGen.head s1 (Relation.ReflTransGen.head s2 Relation.ReflTransGen.refl)

/-- C8 amended: `stop_listen` raises the not-listening `FBClientError` exactly
when the `self.thread` attribute is absent (before any start, or after a
successful stop deleted it); when the attribute is present but the thread is
no longer running — e.g. the loop already exited on its own — `stop_listen`
raises nothing and returns leaving the state unchanged. -/
theorem c8_amended (c : ClientState) :
    ((stop_listen c).2 = some FBClientError.notListening ↔ c.thread = none) ∧
    (∀ t, c.thread = some t → t.running = false → stop_listen c = (c, none)) := by
  obtain ⟨th, log⟩ := c
  cases th with
  | none =>
    refine ⟨⟨fun _ => rfl, fun _ => rfl⟩, ?_⟩
    intro t ht
    cases ht
  | some t =>
    refine ⟨⟨?_, ?_⟩, ?_⟩
    · intro h
      by_cases hr : t.running = true
      · simp [stop_listen, hr] at h
      · simp [stop_listen, hr] at h
    · intro h
      cases h
    · intro t2 ht2 hr2
      simp only [Option.some.injEq] at ht2
      subst ht2
      simp [stop_listen, hr2]

/-- C8 witness: `stop_listen` on a never-started client raises the
not-listening error (the amended iff, applied at the idle client), and the
silent-return branch at the self-stopped client. -/
theorem c8_witness :
    (stop_listen exClientIdle).2 = some FBClientError.notListening ∧
      stop_listen exClientSelfStopped = (exClientSelfStopped, none) :=
  ⟨(c8_amended exClientIdle).1.mpr rfl,
    (c8_amended exClientSelfStopped).2
      { running := false, phase := DaemonPhase.finished, pending := [] } rfl rfl⟩

/-- C9: for a client whose loop is running (after a start, with any amount of
background activity), `stop_listen` succeeds and returns only after the loop
has fully exited: it sets the run-flag false, and the returned state embodies
a completed daemon execution from that flag-write — a sequence of daemon
steps ending in the `finished` phase, during which the transport's
`stopListening` hook is called exactly once — after which the loop handle is
released (`del self.thread`). -/
theorem c9_stop_joins (pend : List Bool) (c0 c1 c : ClientState) (t : ListenThread)
    (h0 : c0.thread = none)
    (h1 : start_listen pend c0 = (c1, none))
    (hs : ClientSteps c1 c)
    (ht : c.thread = some t) (hr : t.running = true) :
    ∃ tf log2,
      stop_listen c = ({ thread := none, log := log2 }, none) ∧
      tf.phase = DaemonPhase.finished ∧
      tf.running = false ∧
      log2.stopL = c.log.stopL + 1 ∧
      DaemonSteps ({ t with running := false }, c.log) (tf, log2) := by
  obtain ⟨th0, log0⟩ := c0
  simp only at h0
  subst h0
  have hc1 : c1 = ⟨some ⟨true, DaemonPhase.entry, pend⟩, log0⟩ := by
    have hred : start_listen pend ⟨none, log0⟩ =
        (⟨some ⟨true, DaemonPhase.entry, pend⟩, log0⟩, none) := rfl
    rw [hred] at h1
    exact ((Prod.mk.injEq _ _ _ _).mp h1.symm).1
  have hgood : GoodThread c := by
    refine clientSteps_good hs ?_
    rw [hc1]
    intro t' ht' _
    simp only [Option.some.injEq] at ht'
    subst ht'
    simp
  have hphase : t.phase ≠ DaemonPhase.finished := hgood t ht hr
  obtain ⟨hsteps, hfin, hrun⟩ :=
    joinRun_daemonSteps { t with running := false } c.log rfl
  refine ⟨(joinRun { t with running := false } c.log).1,
    (joinRun { t with running := false } c.log).2, ?_, hfin, hrun, ?_, hsteps⟩
  · obtain ⟨th, log⟩ := c
    simp only at ht
    subst ht
    simp [stop_listen, hr]
  · obtain ⟨running, phase, pending⟩ := t
    cases phase with
    | entry => rfl
    | check => rfl
    | finished => exact absurd rfl hphase

/-- C9 witness: stopping the freshly started client joins the loop. -/
theorem c9_witness :
    ∃ tf log2,
      stop_listen exClientStarted = ({ thread := none, log := log2 }, none) ∧
      tf.phase = DaemonPhase.finished ∧
      tf.running = false ∧
      log2.stopL = exClientStarted.log.stopL + 1 ∧
      DaemonSteps
        ({ running := false, phase := DaemonPhase.entry, pending := [true] },
          exClientStarted.log) (tf, log2) :=
  c9_stop_joins [true] exClientIdle exClientStarted exClientStarted
    { running := true, phase := DaemonPhase.entry, pending := [true] }
    rfl rfl Relation.ReflTransGen.refl rfl rfl

/-- C10: after a successful `stop_listen` of a running loop the controller is
reset — `stop_listen` deletes the `self.thread` attribute whose presence is
the already-listening check, so a subsequent `start_listen` succeeds and
installs a fresh loop. -/
theorem c10_restart (c : ClientState) (t : ListenThread) (p2 : List Bool)
    (ht : c.thread = some t) (hr : t.running = true) :
    ∃ log2 c2,
      stop_listen c = ({ thread := none, log := log2 }, none) ∧
      start_listen p2 { thread := none, log := log2 } = (c2, none) ∧
      c2.thread = some { running := true, phase := DaemonPhase.entry, pending := p2 } := by
  obtain ⟨th, log⟩ := c
  simp only at ht
  subst ht
  refine ⟨(joinRun { t with running := false } log).2, _, ?_, rfl, rfl⟩
  simp [stop_listen, hr]

/-- C10 witness: stop then start on the started client. -/
theorem c10_witness :
    ∃ log2 c2,
      stop_listen exClientStarted = ({ thread := none, log := log2 }, none) ∧
      start_listen [false] { thread := none, log := log2 } = (c2, none) ∧
      c2.thread = some { running := true, phase := DaemonPhase.entry, pending := [false] } :=
  c10_restart exClientStarted
    { running := true, phase := DaemonPhase.entry, pending := [true] } [false] rfl rfl

end FB
